import Mathlib

/-!
Verification of a regular-grammar → ε-NFA pipeline (`TOA.py`).

The source has three parts, each embedded below:
* class `NFA`: validation at construction, an eager per-state epsilon-closure
  cache, and `accepts` (subset simulation with epsilon closures);
* `parse_grammar`: validates the declared symbol sets and parses rule lines
  into a production table;
* `build_nfa_from_grammar`: compiles the production table into an ε-NFA.

States and symbols are strings, as in the source (Python iterates a string
as its one-character substrings).  Python `set`s are modelled as lists read
up to membership, `dict`s as association lists looked up with `find?`, and
the exceptions (`ValueError`, `RuntimeError`) become `Except` with one error
constructor per raise site.
-/

namespace TOA

/-- Transition table: the `dict` keyed by `(state, symbol-or-None)` mapping
to a set of destination states (`none` = epsilon). -/
abbrev TransT := List ((String × Option String) × List String)

/-- `self.transitions.get((q, a), set())`. -/
def transGet (T : TransT) (q : String) (a : Option String) : List String :=
  match T.find? (fun kv => kv.1 == (q, a)) with
  | some kv => kv.2
  | none => []

/-- Epsilon successors of a state:
`self.transitions.get((current_state, None), set())`. -/
def epsNeighbors (T : TransT) (s : String) : List String :=
  transGet T s none

/-- One saturation round of the search in `_compute_epsilon_closure`: keep
the states visited so far and append the epsilon successors not yet
visited. -/
def stepEps (T : TransT) (X : List String) : List String :=
  X ++ ((X.flatMap (epsNeighbors T)).filter (fun y => decide (y ∉ X))).dedup

/-- Iterated saturation rounds. -/
def iterEps (T : TransT) : Nat → List String → List String
  | 0, X => X
  | n + 1, X => iterEps T n (stepEps T X)

/-- Every destination state mentioned in the transition table. -/
def allDests (T : TransT) : List String :=
  T.flatMap (fun kv => kv.2)

/-- The epsilon closure of `state` (`_compute_epsilon_closure`'s BFS,
modelled as round-by-round saturation of the epsilon successor relation:
both compute the set of states reachable by epsilon moves).  The number of
rounds bounds the number of distinct states the search can ever add, so the
iteration has saturated when the fuel runs out. -/
def epsClosure (T : TransT) (state : String) : List String :=
  iterEps T (allDests T).dedup.length [state]

/-- The `_epsilon_closures` cache: a `dict` from state to closure. -/
abbrev Cache := List (String × List String)

/-- `self._epsilon_closures[s]` as an optional lookup. -/
def cacheLookup (c : Cache) (s : String) : Option (List String) :=
  (c.find? (fun kv => kv.1 == s)).map (fun kv => kv.2)

/-- The `NFA` object: the five constructor fields plus the closure cache. -/
structure NFA where
  states : List String
  alphabet : List String
  transitions : TransT
  start_state : String
  accept_states : List String
  epsilon_closures : Cache
deriving Repr, DecidableEq

/-- `_compute_epsilon_closure`: return the cached closure when present,
otherwise compute it and store it. -/
def compute_epsilon_closure (n : NFA) (state : String) : List String × NFA :=
  match cacheLookup n.epsilon_closures state with
  | some c => (c, n)
  | none =>
      let c := epsClosure n.transitions state
      (c, { n with epsilon_closures := n.epsilon_closures ++ [(state, c)] })

/-- `_compute_all_epsilon_closures`: memoise the closure of every state. -/
def compute_all_epsilon_closures (n : NFA) : NFA :=
  n.states.foldl (fun m s => (compute_epsilon_closure m s).2) n

/-- One constructor per `raise` site in `NFA.__init__` and
`build_nfa_from_grammar`. -/
inductive BuildErr where
  | startNotInStates
  | acceptNotSubset
  | symbolNotInAlphabet
  | markerClash
  | internalError
deriving Repr, DecidableEq

/-- `NFA.__init__`: validate start state, accept states and transition
symbols, then eagerly compute all epsilon closures. -/
def mkNFA (states alphabet : List String) (transitions : TransT)
    (start_state : String) (accept_states : List String) : Except BuildErr NFA :=
  if start_state ∉ states then .error .startNotInStates
  else if ! accept_states.all (fun a => decide (a ∈ states)) then
    .error .acceptNotSubset
  else if ! transitions.all (fun kv =>
      match kv.1.2 with
      | none => true
      | some c => decide (c ∈ alphabet)) then
    .error .symbolNotInAlphabet
  else .ok (compute_all_epsilon_closures
    { states := states, alphabet := alphabet, transitions := transitions,
      start_state := start_state, accept_states := accept_states,
      epsilon_closures := [] })

/-- `_get_epsilon_closure_set`: union of cached closures, defaulting to
`{s}` for a state missing from the cache (`dict.get(s, {s})`). -/
def get_epsilon_closure_set (n : NFA) (states_set : List String) : List String :=
  states_set.flatMap (fun s => (cacheLookup n.epsilon_closures s).getD [s])

/-- The symbol loop of `accepts`, one input character at a time. -/
def acceptsFrom (n : NFA) : List String → List Char → Bool
  | current_states, [] =>
      current_states.any (fun s => decide (s ∈ n.accept_states))
  | current_states, symbol :: rest =>
      if String.singleton symbol ∉ n.alphabet then false
      else
        let next_states := current_states.flatMap
          (fun state => transGet n.transitions state (some (String.singleton symbol)))
        let current' := get_epsilon_closure_set n next_states
        if current'.isEmpty then false
        else acceptsFrom n current' rest

/-- `NFA.accepts`. -/
def NFA.accepts (n : NFA) (input_string : String) : Bool :=
  acceptsFrom n (get_epsilon_closure_set n [n.start_state]) input_string.data

/-- Python `str.strip()` on the characters of a line. -/
def stripChars (l : List Char) : List Char :=
  ((l.dropWhile Char.isWhitespace).reverse.dropWhile Char.isWhitespace).reverse

/-- Python `line.split("->", 1)`: `none` when the line contains no `->`,
otherwise the text before the first `->` and everything after it. -/
def splitFirstArrow : List Char → Option (List Char × List Char)
  | [] => none
  | [_] => none
  | c1 :: c2 :: rest =>
      if c1 == '-' && c2 == '>' then some ([], rest)
      else
        match splitFirstArrow (c2 :: rest) with
        | some (pre, post) => some (c1 :: pre, post)
        | none => none

/-- Python `body.split(sep)` for a one-character separator. -/
def splitOnChar (sep : Char) : List Char → List (List Char)
  | [] => [[]]
  | c :: rest =>
      match splitOnChar sep rest with
      | [] => [[c]]
      | h :: t => if c == sep then [] :: h :: t else (c :: h) :: t

/-- One constructor per `raise ValueError` site in `parse_grammar`. -/
inductive GrammarErr where
  | emptyNonTerminals
  | startNotDeclared (s : String)
  | notDisjoint
  | missingArrow (line_num : Nat) (line : String)
  | emptyHead (line_num : Nat)
  | headNotDeclared (line_num : Nat) (head : String)
  | emptyProduction (line_num : Nat) (head : String)
  | undeclaredTerminal (line_num : Nat) (t : String)
  | undeclaredNonTerminal (line_num : Nat) (nt : String)
  | badProductionFormat (line_num : Nat) (prod : String)
  | unexpectedFormat (line_num : Nat) (prod : String)
deriving Repr, DecidableEq

/-- A parsed production `(terminal-or-None, next-non-terminal-or-None)`. -/
abbrev Production := Option String × Option String

/-- The parsed grammar: `dict` from head non-terminal to its productions,
in insertion order. -/
abbrev GrammarT := List (String × List Production)

/-- `grammar[head].append(p)` on a `defaultdict(list)`. -/
def appendProd (g : GrammarT) (head : String) (p : Production) : GrammarT :=
  if (g.find? (fun kv => kv.1 == head)).isSome then
    g.map (fun kv => if kv.1 == head then (kv.1, kv.2 ++ [p]) else kv)
  else g ++ [(head, [p])]

/-- Classification of one production string (the body of the
`for prod in productions` loop in `parse_grammar`).  `prod` is the already
stripped production text. -/
def classifyProd (declared_non_terminals declared_terminals : List String)
    (line_num : Nat) (prod : List Char) : Except GrammarErr Production :=
  if prod.map Char.toLower == "epsilon".data || prod == "ε".data then
    .ok (none, none)
  else match prod with
    | [c] =>
        let terminal := String.singleton c
        if terminal ∉ declared_terminals then
          .error (.undeclaredTerminal line_num terminal)
        else .ok (some terminal, none)
    | [c1, c2] =>
        let terminal := String.singleton c1
        let next_non_terminal := String.singleton c2
        if terminal ∉ declared_terminals then
          .error (.undeclaredTerminal line_num terminal)
        else if next_non_terminal ∉ declared_non_terminals then
          .error (.undeclaredNonTerminal line_num next_non_terminal)
        else .ok (some terminal, some next_non_terminal)
    | [] => .error (.unexpectedFormat line_num (String.mk prod))
    | _ => .error (.badProductionFormat line_num (String.mk prod))

/-- The `for prod in productions` loop: classify each production and append
it to the grammar entry of `head`. -/
def parse_productions (declared_non_terminals declared_terminals : List String)
    (line_num : Nat) (head : String) :
    GrammarT → List (List Char) → Except GrammarErr GrammarT
  | g, [] => .ok g
  | g, prod :: rest =>
      match classifyProd declared_non_terminals declared_terminals line_num prod with
      | .error e => .error e
      | .ok p =>
          parse_productions declared_non_terminals declared_terminals line_num head
            (appendProd g head p) rest

/-- Processing of a single rule line (strip, comment skip, arrow split,
head checks, production split). -/
def parse_rule_line (declared_non_terminals declared_terminals : List String)
    (line_num : Nat) (raw : String) (g : GrammarT) : Except GrammarErr GrammarT :=
  let line := stripChars raw.data
  if line.isEmpty || line.head? == some '#' then .ok g
  else
    match splitFirstArrow line with
    | none => .error (.missingArrow line_num (String.mk line))
    | some (head_part, body) =>
        let head_chars := stripChars head_part
        let head := String.mk head_chars
        if head_chars.isEmpty then .error (.emptyHead line_num)
        else if head ∉ declared_non_terminals then
          .error (.headNotDeclared line_num head)
        else
          let productions := (splitOnChar '|' body).map stripChars
          if productions.isEmpty || productions.any (fun p => p.isEmpty) then
            .error (.emptyProduction line_num head)
          else
            parse_productions declared_non_terminals declared_terminals line_num
              head g productions

/-- The `for line_num, line in enumerate(grammar_lines, 1)` loop. -/
def parse_lines (declared_non_terminals declared_terminals : List String) :
    Nat → GrammarT → List String → Except GrammarErr GrammarT
  | _, g, [] => .ok g
  | line_num, g, line :: rest =>
      match parse_rule_line declared_non_terminals declared_terminals
          line_num line g with
      | .error e => .error e
      | .ok g2 =>
          parse_lines declared_non_terminals declared_terminals (line_num + 1) g2 rest

/-- `parse_grammar`: the three declaration preconditions, then the line
loop starting from an empty grammar. -/
def parse_grammar (grammar_lines : List String)
    (declared_non_terminals declared_terminals : List String)
    (declared_start_symbol : String) : Except GrammarErr GrammarT :=
  if declared_non_terminals.isEmpty then .error .emptyNonTerminals
  else if declared_start_symbol ∉ declared_non_terminals then
    .error (.startNotDeclared declared_start_symbol)
  else if declared_terminals.any (fun t => decide (t ∈ declared_non_terminals)) then
    .error .notDisjoint
  else parse_lines declared_non_terminals declared_terminals 1 [] grammar_lines

/-- `FINAL_STATE_MARKER`. -/
def FINAL_STATE_MARKER : String := "_FINAL_"

/-- `nfa_transitions[(q, a)].add(dest)` on a `defaultdict(set)`. -/
def addTrans (T : TransT) (key : String × Option String) (dest : String) : TransT :=
  if (T.find? (fun kv => kv.1 == key)).isSome then
    T.map (fun kv =>
      if kv.1 == key then (kv.1, if dest ∈ kv.2 then kv.2 else kv.2 ++ [dest])
      else kv)
  else T ++ [(key, [dest])]

/-- Body of the double loop in `build_nfa_from_grammar`, for one parsed
production of `head_state`. -/
def add_production_transition (T : TransT) (head_state : String) :
    Production → Except BuildErr TransT
  | (none, none) => .ok (addTrans T (head_state, none) FINAL_STATE_MARKER)
  | (some terminal, none) =>
      .ok (addTrans T (head_state, some terminal) FINAL_STATE_MARKER)
  | (some terminal, some next_state) =>
      .ok (addTrans T (head_state, some terminal) next_state)
  | (none, some _) => .error .internalError

/-- Inner loop over the productions of one head state. -/
def build_transitions_for (head_state : String) :
    TransT → List Production → Except BuildErr TransT
  | T, [] => .ok T
  | T, p :: rest =>
      match add_production_transition T head_state p with
      | .error e => .error e
      | .ok T2 => build_transitions_for head_state T2 rest

/-- Outer loop over `grammar_dict.items()`. -/
def build_transitions : TransT → GrammarT → Except BuildErr TransT
  | T, [] => .ok T
  | T, (head_state, productions) :: rest =>
      match build_transitions_for head_state T productions with
      | .error e => .error e
      | .ok T2 => build_transitions T2 rest

/-- `build_nfa_from_grammar`. -/
def build_nfa_from_grammar (grammar_dict : GrammarT)
    (non_terminals terminals : List String) (start_symbol : String) :
    Except BuildErr NFA :=
  if FINAL_STATE_MARKER ∈ non_terminals then .error .markerClash
  else
    match build_transitions [] grammar_dict with
    | .error e => .error e
    | .ok nfa_transitions =>
        mkNFA (non_terminals ++ [FINAL_STATE_MARKER]) terminals nfa_transitions
          start_symbol [FINAL_STATE_MARKER]

/-- The single cached-closure read the engine performs:
`self._epsilon_closures.get(s, {s})`. -/
def cachedClosure (n : NFA) (s : String) : List String :=
  (cacheLookup n.epsilon_closures s).getD [s]

/-- The acceptance algorithm as the spec words it (§4.3, steps 2b–3), for
symbols already known to lie in the alphabet: `next` is the union over the
current set of the symbol transitions, `current` becomes the
epsilon-closure-of-set of `next`, an empty `current` rejects immediately,
and at the end acceptance is intersection with the accept states. -/
def acceptsSpecLoop (n : NFA) : List String → List Char → Bool
  | current, [] => current.any (fun s => decide (s ∈ n.accept_states))
  | current, symbol :: rest =>
      let next := current.flatMap
        (fun state => transGet n.transitions state (some (String.singleton symbol)))
      let current' := get_epsilon_closure_set n next
      if current'.isEmpty then false
      else acceptsSpecLoop n current' rest

/-- Spec §4.3 step 1 followed by the loop: `current` starts as the epsilon
closure of `{start}`. -/
def acceptsSpec (n : NFA) (input_string : String) : Bool :=
  acceptsSpecLoop n (get_epsilon_closure_set n [n.start_state]) input_string.data

/-- The three caller-visible outcomes of one acceptance query in `main`
(lines 292–301): a string with symbols outside the alphabet is reported
separately from an ordinary accept/reject answer. -/
inductive CheckOutcome where
  | invalidSymbolRejection
  | accepted
  | rejected
deriving Repr, DecidableEq

/-- The acceptance-check step of `main`: pre-scan for symbols outside the
alphabet and report those as the distinct soft rejection, otherwise report
the boolean from `accepts`. -/
def main_check (n : NFA) (input_string : String) : CheckOutcome :=
  if input_string.data.all (fun c => decide (String.singleton c ∈ n.alphabet)) then
    (if n.accepts input_string then .accepted else .rejected)
  else .invalidSymbolRejection

/-- `_get_epsilon_closure_set` with the object state threaded through: the
method body only reads the cache (`dict.get` with a default never inserts),
so the returned object is the received one. -/
def get_epsilon_closure_set_st (n : NFA) (states_set : List String) :
    List String × NFA :=
  (states_set.flatMap (fun s => (cacheLookup n.epsilon_closures s).getD [s]), n)

/-- The symbol loop of `accepts` with the object state threaded through
every method call, so that mutation-freedom is a statement rather than a
convention. -/
def acceptsFromSt (n : NFA) : List String → List Char → Bool × NFA
  | current_states, [] =>
      (current_states.any (fun s => decide (s ∈ n.accept_states)), n)
  | current_states, symbol :: rest =>
      if String.singleton symbol ∉ n.alphabet then (false, n)
      else
        let next_states := current_states.flatMap
          (fun state => transGet n.transitions state (some (String.singleton symbol)))
        let st := get_epsilon_closure_set_st n next_states
        if st.1.isEmpty then (false, st.2)
        else acceptsFromSt st.2 st.1 rest

/-- `accepts` with the object state threaded. -/
def acceptsSt (n : NFA) (input_string : String) : Bool × NFA :=
  let st := get_epsilon_closure_set_st n [n.start_state]
  acceptsFromSt st.2 st.1 input_string.data

/-- The three legal production shapes, with symbols drawn from the declared
sets; `(none, some _)` is illegal. -/
def shapeOK (declared_non_terminals declared_terminals : List String) :
    Production → Prop
  | (none, none) => True
  | (some t, none) => t ∈ declared_terminals
  | (some t, some nt) => t ∈ declared_terminals ∧ nt ∈ declared_non_terminals
  | (none, some _) => False

instance (V T : List String) (p : Production) : Decidable (shapeOK V T p) := by
  rcases p with ⟨_ | t, _ | nt⟩ <;> simp only [shapeOK] <;> infer_instance

/-- Every production of every head in the table has a legal shape. -/
def GrammarShapes (declared_non_terminals declared_terminals : List String)
    (g : GrammarT) : Prop :=
  ∀ e ∈ g, ∀ p ∈ e.2, shapeOK declared_non_terminals declared_terminals p

/-- Every destination state of every transition lies in `states`. -/
def DestsIn (T : TransT) (states : List String) : Prop :=
  ∀ kv ∈ T, ∀ d ∈ kv.2, d ∈ states

/-- Run the full pipeline and answer one membership query (`none` when
parsing or construction fails). -/
def pipelineAccepts (grammar_lines : List String)
    (non_terminals terminals : List String) (start_symbol : String)
    (input_string : String) : Option Bool :=
  match parse_grammar grammar_lines non_terminals terminals start_symbol with
  | .error _ => none
  | .ok g =>
      match build_nfa_from_grammar g non_terminals terminals start_symbol with
      | .error _ => none
      | .ok n => some (n.accepts input_string)

/-- Equality of pipeline results is decidable, so concrete runs can be
checked by evaluation. -/
instance {ε α : Type} [DecidableEq ε] [DecidableEq α] :
    DecidableEq (Except ε α) := fun a b =>
  match a, b with
  | .error e1, .error e2 => decidable_of_iff (e1 = e2) (by simp)
  | .error _, .ok _ => isFalse (by simp)
  | .ok _, .error _ => isFalse (by simp)
  | .ok a1, .ok a2 => decidable_of_iff (a1 = a2) (by simp)

/-- Reachability along epsilon edges: the mathematical meaning of the
closure computation. -/
inductive EpsReach (T : TransT) : String → String → Prop where
  | refl (s : String) : EpsReach T s s
  | tail {s x y : String} : EpsReach T s x → y ∈ epsNeighbors T x →
      EpsReach T s y

/-- The automaton the pipeline builds for the grammar `S -> epsilon` over
Σ = {a}, V = {S}: a concrete constructed instance for witnesses. -/
def epsSampleNFA : NFA where
  states := ["S", "_FINAL_"]
  alphabet := ["a"]
  transitions := [(("S", none), ["_FINAL_"])]
  start_state := "S"
  accept_states := ["_FINAL_"]
  epsilon_closures := [("S", ["S", "_FINAL_"]), ("_FINAL_", ["_FINAL_"])]

/-- The automaton the pipeline builds for `S -> aA | b`, `A -> b` over
Σ = {a,b}, V = {S,A}: a concrete constructed instance for witnesses. -/
def abSampleNFA : NFA where
  states := ["S", "A", "_FINAL_"]
  alphabet := ["a", "b"]
  transitions := [(("S", some "a"), ["A"]), (("S", some "b"), ["_FINAL_"]),
    (("A", some "b"), ["_FINAL_"])]
  start_state := "S"
  accept_states := ["_FINAL_"]
  epsilon_closures := [("S", ["S"]), ("A", ["A"]), ("_FINAL_", ["_FINAL_"])]

/-- An automaton whose only transition points at a state outside `states`:
the `NFA` constructor accepts it, showing it never validates transition
destinations. -/
def strayDestNFA : NFA where
  states := ["q"]
  alphabet := ["a"]
  transitions := [(("q", some "a"), ["z"])]
  start_state := "q"
  accept_states := []
  epsilon_closures := [("q", ["q"])]

/-! ### Saturation of the epsilon-closure iteration -/

theorem subset_stepEps (T : TransT) (X : List String) : X ⊆ stepEps T X :=
  List.subset_append_left _ _

theorem subset_iterEps (T : TransT) :
    ∀ (n : Nat) (X : List String), X ⊆ iterEps T n X
  | 0, _ => fun _ h => h
  | n + 1, X => (subset_stepEps T X).trans (subset_iterEps T n (stepEps T X))

theorem mem_epsClosure_self (T : TransT) (s : String) : s ∈ epsClosure T s :=
  subset_iterEps T _ [s] (List.mem_singleton_self s)

theorem mem_stepEps_of_neighbor {T : TransT} {X : List String} {x y : String}
    (hx : x ∈ X) (hy : y ∈ epsNeighbors T x) : y ∈ stepEps T X := by
  by_cases hmem : y ∈ X
  · exact List.mem_append_left _ hmem
  · refine List.mem_append_right _ ?_
    rw [List.mem_dedup, List.mem_filter]
    exact ⟨List.mem_flatMap.mpr ⟨x, hx, hy⟩, by simp [hmem]⟩

theorem mem_allDests_of_transGet {T : TransT} {q : String} {a : Option String}
    {x : String} (h : x ∈ transGet T q a) : x ∈ allDests T := by
  unfold transGet at h
  rcases hf : T.find? (fun kv => kv.1 == (q, a)) with _ | kv
  · rw [hf] at h; simp at h
  · rw [hf] at h
    exact List.mem_flatMap.mpr ⟨kv, List.mem_of_find?_eq_some hf, h⟩

theorem stepEps_subset {T : TransT} {X U : List String}
    (hd : allDests T ⊆ U) (hX : X ⊆ U) : stepEps T X ⊆ U := by
  intro y hy
  rcases List.mem_append.mp hy with h | h
  · exact hX h
  · rw [List.mem_dedup, List.mem_filter] at h
    rcases List.mem_flatMap.mp h.1 with ⟨x, _, hyx⟩
    exact hd (mem_allDests_of_transGet hyx)

theorem stepEps_nodup {T : TransT} {X : List String} (h : X.Nodup) :
    (stepEps T X).Nodup := by
  refine h.append (List.nodup_dedup _) ?_
  intro a ha haf
  rw [List.mem_dedup, List.mem_filter] at haf
  have hnot : a ∉ X := by simpa using haf.2
  exact hnot ha

theorem stepEps_eq_or_lt (T : TransT) (X : List String) :
    stepEps T X = X ∨ X.length < (stepEps T X).length := by
  rcases hf : ((X.flatMap (epsNeighbors T)).filter
      (fun y => decide (y ∉ X))).dedup with _ | ⟨a, l⟩
  · left
    unfold stepEps
    rw [hf, List.append_nil]
  · right
    unfold stepEps
    rw [hf, List.length_append, List.length_cons]
    omega

theorem iterEps_of_fixed {T : TransT} {X : List String}
    (h : stepEps T X = X) : ∀ n, iterEps T n X = X
  | 0 => rfl
  | n + 1 => by
      show iterEps T n (stepEps T X) = X
      rw [h]
      exact iterEps_of_fixed h n

theorem length_le_dedup_of_nodup {X U : List String} (hn : X.Nodup)
    (hs : X ⊆ U) : X.length ≤ U.dedup.length := by
  have h1 : X.toFinset.card = X.length := List.toFinset_card_of_nodup hn
  have h2 : U.toFinset.card = U.dedup.length := List.card_toFinset U
  have h3 : X.toFinset ⊆ U.toFinset := by
    intro a ha
    rw [List.mem_toFinset] at ha ⊢
    exact hs ha
  calc X.length = X.toFinset.card := h1.symm
    _ ≤ U.toFinset.card := Finset.card_le_card h3
    _ = U.dedup.length := h2

theorem iterEps_saturates {T : TransT} {U : List String}
    (hd : allDests T ⊆ U) :
    ∀ (n : Nat) (X : List String), X.Nodup → X ⊆ U →
      U.dedup.length ≤ X.length + n →
      stepEps T (iterEps T n X) = iterEps T n X := by
  intro n
  induction n with
  | zero =>
      intro X hn hs hlen
      rcases stepEps_eq_or_lt T X with h | h
      · exact h
      · exfalso
        have hle : (stepEps T X).length ≤ U.dedup.length :=
          length_le_dedup_of_nodup (stepEps_nodup hn) (stepEps_subset hd hs)
        simp only [Nat.add_zero] at hlen
        omega
  | succ n ih =>
      intro X hn hs hlen
      rcases stepEps_eq_or_lt T X with h | h
      · show stepEps T (iterEps T n (stepEps T X)) = iterEps T n (stepEps T X)
        rw [h, iterEps_of_fixed h n]
        exact h
      · show stepEps T (iterEps T n (stepEps T X)) = iterEps T n (stepEps T X)
        exact ih (stepEps T X) (stepEps_nodup hn) (stepEps_subset hd hs)
          (by omega)

theorem stepEps_epsClosure (T : TransT) (s : String) :
    stepEps T (epsClosure T s) = epsClosure T s := by
  unfold epsClosure
  have hd : allDests T ⊆ s :: allDests T := List.subset_cons_self s _
  refine iterEps_saturates hd _ [s] (List.nodup_singleton s) ?_ ?_
  · intro a ha
    rw [List.mem_singleton] at ha
    exact ha ▸ List.mem_cons_self _ _
  · by_cases hm : s ∈ allDests T
    · rw [List.dedup_cons_of_mem hm]
      simp
    · rw [List.dedup_cons_of_not_mem hm]
      simp [Nat.add_comm]

theorem epsClosure_closed {T : TransT} {s x y : String}
    (hx : x ∈ epsClosure T s) (hy : y ∈ epsNeighbors T x) :
    y ∈ epsClosure T s := by
  have h := mem_stepEps_of_neighbor hx hy
  rwa [stepEps_epsClosure] at h

theorem epsReach_of_mem_iterEps {T : TransT} {s : String} :
    ∀ (n : Nat) (X : List String), (∀ z ∈ X, EpsReach T s z) →
      ∀ x ∈ iterEps T n X, EpsReach T s x := by
  intro n
  induction n with
  | zero => intro X hX x hx; exact hX x hx
  | succ n ih =>
      intro X hX x hx
      refine ih (stepEps T X) ?_ x hx
      intro z hz
      rcases List.mem_append.mp hz with h | h
      · exact hX z h
      · rw [List.mem_dedup, List.mem_filter] at h
        rcases List.mem_flatMap.mp h.1 with ⟨w, hw, hzw⟩
        exact .tail (hX w hw) hzw

theorem epsReach_of_mem_epsClosure {T : TransT} {s x : String}
    (h : x ∈ epsClosure T s) : EpsReach T s x :=
  epsReach_of_mem_iterEps _ [s]
    (fun z hz => by
      rw [List.mem_singleton] at hz
      rw [hz]
      exact .refl s) x h

theorem epsReach_trans {T : TransT} {a b c : String}
    (h1 : EpsReach T a b) (h2 : EpsReach T b c) : EpsReach T a c := by
  induction h2 with
  | refl => exact h1
  | tail _ hy ih => exact .tail ih hy

theorem mem_epsClosure_of_epsReach {T : TransT} {s x : String}
    (h : EpsReach T s x) : x ∈ epsClosure T s := by
  induction h with
  | refl => exact mem_epsClosure_self T s
  | tail _ hy ih => exact epsClosure_closed ih hy

theorem epsClosure_trans {T : TransT} {s x y : String}
    (hx : x ∈ epsClosure T s) (hy : y ∈ epsClosure T x) :
    y ∈ epsClosure T s :=
  mem_epsClosure_of_epsReach
    (epsReach_trans (epsReach_of_mem_epsClosure hx)
      (epsReach_of_mem_epsClosure hy))

theorem epsClosure_of_no_neighbors {T : TransT} {s : String}
    (h : epsNeighbors T s = []) : epsClosure T s = [s] := by
  have hfix : stepEps T [s] = [s] := by
    simp [stepEps, h]
  unfold epsClosure
  exact iterEps_of_fixed hfix _

/-! ### The closure cache built at construction -/

theorem cacheLookup_append (c1 c2 : Cache) (x : String) :
    cacheLookup (c1 ++ c2) x = (cacheLookup c1 x).or (cacheLookup c2 x) := by
  unfold cacheLookup
  rw [List.find?_append]
  cases hf : c1.find? (fun kv => kv.1 == x) <;> simp [hf]

theorem cacheLookup_single (s : String) (v : List String) (x : String) :
    cacheLookup [(s, v)] x = (if x = s then some v else none) := by
  unfold cacheLookup
  by_cases h : s = x
  · subst h
    rw [List.find?_cons_of_pos _ (by simp)]
    simp
  · rw [List.find?_cons_of_neg _ (by simp [h]), List.find?_nil]
    simp [Ne.symm h]

theorem cacheLookup_nil (x : String) : cacheLookup [] x = none := by
  simp [cacheLookup]

theorem compute_epsilon_closure_spec (n : NFA) (s : String) :
    ((compute_epsilon_closure n s).2.states = n.states ∧
     (compute_epsilon_closure n s).2.alphabet = n.alphabet ∧
     (compute_epsilon_closure n s).2.transitions = n.transitions ∧
     (compute_epsilon_closure n s).2.start_state = n.start_state ∧
     (compute_epsilon_closure n s).2.accept_states = n.accept_states) ∧
    (compute_epsilon_closure n s).2.epsilon_closures =
      (if (cacheLookup n.epsilon_closures s).isSome then n.epsilon_closures
       else n.epsilon_closures ++ [(s, epsClosure n.transitions s)]) := by
  cases hl : cacheLookup n.epsilon_closures s <;>
    simp [compute_epsilon_closure, hl]

theorem foldl_closures_spec (T : TransT) :
    ∀ (l : List String) (m : NFA), m.transitions = T →
      (∀ x, cacheLookup m.epsilon_closures x = none ∨
        cacheLookup m.epsilon_closures x = some (epsClosure T x)) →
      ((l.foldl (fun m s => (compute_epsilon_closure m s).2) m).states = m.states ∧
       (l.foldl (fun m s => (compute_epsilon_closure m s).2) m).alphabet = m.alphabet ∧
       (l.foldl (fun m s => (compute_epsilon_closure m s).2) m).transitions = m.transitions ∧
       (l.foldl (fun m s => (compute_epsilon_closure m s).2) m).start_state = m.start_state ∧
       (l.foldl (fun m s => (compute_epsilon_closure m s).2) m).accept_states = m.accept_states) ∧
      ∀ x, cacheLookup
          ((l.foldl (fun m s => (compute_epsilon_closure m s).2) m).epsilon_closures) x =
        (if x ∈ l ∨ (cacheLookup m.epsilon_closures x).isSome = true
         then some (epsClosure T x) else none)
  | [], m, _, hinv => by
      refine ⟨⟨rfl, rfl, rfl, rfl, rfl⟩, ?_⟩
      intro x
      simp only [List.foldl_nil, List.not_mem_nil, false_or]
      rcases hinv x with h | h <;> rw [h] <;> simp
  | s :: l, m, hT, hinv => by
      have hspec := compute_epsilon_closure_spec m s
      have hchar : ∀ x, cacheLookup (compute_epsilon_closure m s).2.epsilon_closures x =
          (if x = s ∨ (cacheLookup m.epsilon_closures x).isSome = true
           then some (epsClosure T x) else none) := by
        intro x
        rw [hspec.2]
        cases hl : cacheLookup m.epsilon_closures s with
        | some c =>
            simp only [hl, Option.isSome_some, if_true]
            rcases eq_or_ne x s with hx | hx
            · subst hx
              rcases hinv x with h | h
              · rw [h] at hl; exact absurd hl (by simp)
              · simp [h, hl]
            · rcases hinv x with h | h <;> rw [h] <;> simp [h, hx]
        | none =>
            simp only [hl, Option.isSome_none, Bool.false_eq_true, if_false]
            rw [cacheLookup_append, cacheLookup_single, hT]
            rcases eq_or_ne x s with hx | hx
            · subst hx
              rw [hl]
              simp
            · rcases hinv x with h | h <;> rw [h] <;> simp [h, hx]
      have hinv' : ∀ x, cacheLookup (compute_epsilon_closure m s).2.epsilon_closures x = none ∨
          cacheLookup (compute_epsilon_closure m s).2.epsilon_closures x =
            some (epsClosure T x) := by
        intro x
        rw [hchar x]
        by_cases hc : x = s ∨ (cacheLookup m.epsilon_closures x).isSome = true <;>
          simp [hc]
      have hT' : (compute_epsilon_closure m s).2.transitions = T := by
        rw [hspec.1.2.2.1, hT]
      have ih := foldl_closures_spec T l (compute_epsilon_closure m s).2 hT' hinv'
      constructor
      · exact ⟨by rw [List.foldl_cons, ih.1.1, hspec.1.1],
          by rw [List.foldl_cons, ih.1.2.1, hspec.1.2.1],
          by rw [List.foldl_cons, ih.1.2.2.1, hspec.1.2.2.1],
          by rw [List.foldl_cons, ih.1.2.2.2.1, hspec.1.2.2.2.1],
          by rw [List.foldl_cons, ih.1.2.2.2.2, hspec.1.2.2.2.2]⟩
      · intro x
        rw [List.foldl_cons, ih.2 x]
        refine if_congr ?_ rfl rfl
        have hsome : (cacheLookup (compute_epsilon_closure m s).2.epsilon_closures x).isSome = true ↔
            (x = s ∨ (cacheLookup m.epsilon_closures x).isSome = true) := by
          rw [hchar x]
          by_cases hc : x = s ∨ (cacheLookup m.epsilon_closures x).isSome = true <;>
            simp [hc]
        rw [hsome, List.mem_cons]
        tauto

theorem mkNFA_ok_spec {states alphabet : List String} {T : TransT}
    {start : String} {acc : List String} {n : NFA}
    (h : mkNFA states alphabet T start acc = .ok n) :
    n.states = states ∧ n.alphabet = alphabet ∧ n.transitions = T ∧
    n.start_state = start ∧ n.accept_states = acc ∧
    (∀ x, cacheLookup n.epsilon_closures x =
      (if x ∈ states then some (epsClosure T x) else none)) ∧
    start ∈ states ∧ (∀ a ∈ acc, a ∈ states) := by
  unfold mkNFA at h
  split at h
  · exact absurd h (by simp)
  · split at h
    · exact absurd h (by simp)
    · split at h
      · exact absurd h (by simp)
      · rename_i h1 h2 h3
        rw [not_not] at h1
        rw [Bool.not_eq_true, Bool.not_eq_false', List.all_eq_true] at h2
        injection h with hn
        have hf := foldl_closures_spec T states
          { states := states, alphabet := alphabet, transitions := T,
            start_state := start, accept_states := acc, epsilon_closures := [] }
          rfl (fun x => by rw [cacheLookup_nil]; left; rfl)
        refine ⟨?_, ?_, ?_, ?_, ?_, ?_, h1, ?_⟩
        · rw [← hn]; exact hf.1.1
        · rw [← hn]; exact hf.1.2.1
        · rw [← hn]; exact hf.1.2.2.1
        · rw [← hn]; exact hf.1.2.2.2.1
        · rw [← hn]; exact hf.1.2.2.2.2
        · intro x
          rw [← hn]
          refine (hf.2 x).trans ?_
          refine if_congr ?_ rfl rfl
          simp [cacheLookup_nil]
        · intro a ha
          exact of_decide_eq_true (h2 a ha)

/-! ### The acceptance loop -/

theorem acceptsFrom_eq_specLoop (n : NFA) :
    ∀ (l : List Char) (cur : List String),
      (∀ c ∈ l, String.singleton c ∈ n.alphabet) →
      acceptsFrom n cur l = acceptsSpecLoop n cur l
  | [], _, _ => rfl
  | c :: rest, cur, h => by
      have hc : String.singleton c ∈ n.alphabet := h c (List.mem_cons_self c rest)
      simp only [acceptsFrom, acceptsSpecLoop, hc, not_true_eq_false, if_false]
      split
      · rfl
      · exact acceptsFrom_eq_specLoop n rest _
          (fun d hd => h d (List.mem_cons_of_mem c hd))

theorem acceptsFrom_false_of_invalid (n : NFA) :
    ∀ (l : List Char) (cur : List String),
      (∃ c ∈ l, String.singleton c ∉ n.alphabet) →
      acceptsFrom n cur l = false
  | [], _, h => absurd h (by simp)
  | c :: rest, cur, h => by
      by_cases hc : String.singleton c ∈ n.alphabet
      · simp only [acceptsFrom, hc, not_true_eq_false, if_false]
        split
        · rfl
        · refine acceptsFrom_false_of_invalid n rest _ ?_
          rcases h with ⟨d, hd, hdn⟩
          rcases List.mem_cons.mp hd with hde | hd2
          · rw [hde] at hdn
            exact absurd hc hdn
          · exact ⟨d, hd2, hdn⟩
      · simp only [acceptsFrom]
        rw [if_pos hc]

theorem acceptsFromSt_spec :
    ∀ (l : List Char) (n : NFA) (cur : List String),
      (acceptsFromSt n cur l).2 = n ∧
      (acceptsFromSt n cur l).1 = acceptsFrom n cur l
  | [], _, _ => ⟨rfl, rfl⟩
  | c :: rest, n, cur => by
      by_cases hc : String.singleton c ∉ n.alphabet
      · simp [acceptsFromSt, acceptsFrom, hc]
      · simp only [acceptsFromSt, acceptsFrom, get_epsilon_closure_set_st,
          get_epsilon_closure_set, hc, if_false]
        split
        · exact ⟨rfl, rfl⟩
        · exact acceptsFromSt_spec rest n _

/-! ### Shapes of parsed productions -/

theorem classifyProd_shape {V T : List String} {ln : Nat} {prod : List Char}
    {p : Production} (h : classifyProd V T ln prod = .ok p) : shapeOK V T p := by
  simp only [classifyProd] at h
  split at h
  · injection h with h
    rw [← h]
    trivial
  · split at h
    · split at h
      · exact absurd h (by simp)
      · rename_i hmem
        injection h with h
        rw [← h]
        simp only [shapeOK]
        exact not_not.mp hmem
    · split at h
      · exact absurd h (by simp)
      · split at h
        · exact absurd h (by simp)
        · rename_i hmem1 hmem2
          injection h with h
          rw [← h]
          exact ⟨not_not.mp hmem1, not_not.mp hmem2⟩
    · exact absurd h (by simp)
    · exact absurd h (by simp)

theorem appendProd_shapes {V T : List String} {g : GrammarT} {head : String}
    {q : Production} (hg : GrammarShapes V T g) (hq : shapeOK V T q) :
    GrammarShapes V T (appendProd g head q) := by
  intro e he p hp
  unfold appendProd at he
  split at he
  · rcases List.mem_map.mp he with ⟨kv, hkv, hekv⟩
    by_cases hk : kv.1 == head
    · rw [if_pos hk] at hekv
      rw [← hekv] at hp
      rcases List.mem_append.mp hp with h2 | h2
      · exact hg kv hkv p h2
      · rw [List.mem_singleton] at h2
        rw [h2]
        exact hq
    · rw [if_neg hk] at hekv
      rw [← hekv] at hp
      exact hg kv hkv p hp
  · rcases List.mem_append.mp he with h2 | h2
    · exact hg e h2 p hp
    · rw [List.mem_singleton] at h2
      rw [h2] at hp
      rw [List.mem_singleton] at hp
      rw [hp]
      exact hq

theorem parse_productions_shapes {V T : List String} {ln : Nat} {head : String} :
    ∀ (ps : List (List Char)) (g g2 : GrammarT), GrammarShapes V T g →
      parse_productions V T ln head g ps = .ok g2 → GrammarShapes V T g2
  | [], g, g2, hg, h => by
      injection h with h
      rw [← h]
      exact hg
  | prod :: rest, g, g2, hg, h => by
      unfold parse_productions at h
      split at h
      · exact absurd h (by simp)
      · rename_i p hp
        exact parse_productions_shapes rest _ g2
          (appendProd_shapes hg (classifyProd_shape hp)) h

theorem parse_rule_line_shapes {V T : List String} {ln : Nat} {raw : String}
    {g g2 : GrammarT} (hg : GrammarShapes V T g)
    (h : parse_rule_line V T ln raw g = .ok g2) : GrammarShapes V T g2 := by
  simp only [parse_rule_line] at h
  split at h
  · injection h with h
    rw [← h]
    exact hg
  · split at h
    · exact absurd h (by simp)
    · split at h
      · exact absurd h (by simp)
      · split at h
        · exact absurd h (by simp)
        · split at h
          · exact absurd h (by simp)
          · exact parse_productions_shapes _ g g2 hg h

theorem parse_lines_shapes {V T : List String} :
    ∀ (lines : List String) (ln : Nat) (g g2 : GrammarT), GrammarShapes V T g →
      parse_lines V T ln g lines = .ok g2 → GrammarShapes V T g2
  | [], _, g, g2, hg, h => by
      injection h with h
      rw [← h]
      exact hg
  | line :: rest, ln, g, g2, hg, h => by
      unfold parse_lines at h
      split at h
      · exact absurd h (by simp)
      · rename_i g1 hg1
        exact parse_lines_shapes rest (ln + 1) g1 g2
          (parse_rule_line_shapes hg hg1) h

theorem parse_grammar_shapes {lines V T : List String} {S : String}
    {g : GrammarT} (h : parse_grammar lines V T S = .ok g) :
    GrammarShapes V T g := by
  unfold parse_grammar at h
  split at h
  · exact absurd h (by simp)
  · split at h
    · exact absurd h (by simp)
    · split at h
      · exact absurd h (by simp)
      · exact parse_lines_shapes lines 1 [] g
          (fun e he => absurd he (List.not_mem_nil e)) h

/-! ### The builder never reaches the internal-error branch -/

theorem addTrans_destsIn {T : TransT} {S : List String}
    {key : String × Option String} {dest : String}
    (hT : DestsIn T S) (hd : dest ∈ S) : DestsIn (addTrans T key dest) S := by
  intro kv hkv d hdk
  unfold addTrans at hkv
  split at hkv
  · rcases List.mem_map.mp hkv with ⟨kv0, hkv0, he⟩
    by_cases hk : kv0.1 == key
    · rw [if_pos hk] at he
      rw [← he] at hdk
      dsimp only at hdk
      split at hdk
      · exact hT kv0 hkv0 d hdk
      · rcases List.mem_append.mp hdk with h2 | h2
        · exact hT kv0 hkv0 d h2
        · rw [List.mem_singleton] at h2
          rw [h2]
          exact hd
    · rw [if_neg hk] at he
      rw [← he] at hdk
      exact hT kv0 hkv0 d hdk
  · rcases List.mem_append.mp hkv with h2 | h2
    · exact hT kv h2 d hdk
    · rw [List.mem_singleton] at h2
      rw [h2] at hdk
      dsimp only at hdk
      rw [List.mem_singleton] at hdk
      rw [hdk]
      exact hd

theorem add_production_transition_ok {V Tm : List String} {T : TransT}
    {head : String} {p : Production} (hp : shapeOK V Tm p)
    (hT : DestsIn T (V ++ [FINAL_STATE_MARKER])) :
    ∃ T2, add_production_transition T head p = .ok T2 ∧
      DestsIn T2 (V ++ [FINAL_STATE_MARKER]) := by
  have hF : FINAL_STATE_MARKER ∈ V ++ [FINAL_STATE_MARKER] :=
    List.mem_append_right _ (List.mem_singleton_self _)
  rcases p with ⟨_ | t, _ | nt⟩
  · exact ⟨_, rfl, addTrans_destsIn hT hF⟩
  · exact absurd hp (by simp [shapeOK])
  · exact ⟨_, rfl, addTrans_destsIn hT hF⟩
  · exact ⟨_, rfl, addTrans_destsIn hT (List.mem_append_left _ hp.2)⟩

theorem build_transitions_for_ok {V Tm : List String} {head : String} :
    ∀ (ps : List Production) (T : TransT), (∀ p ∈ ps, shapeOK V Tm p) →
      DestsIn T (V ++ [FINAL_STATE_MARKER]) →
      ∃ T2, build_transitions_for head T ps = .ok T2 ∧
        DestsIn T2 (V ++ [FINAL_STATE_MARKER])
  | [], T, _, hT => ⟨T, rfl, hT⟩
  | p :: rest, T, hps, hT => by
      obtain ⟨T1, hT1, hpres⟩ :=
        @add_production_transition_ok V Tm T head p
          (hps p (List.mem_cons_self p rest)) hT
      obtain ⟨T2, hT2, hpres2⟩ :=
        build_transitions_for_ok rest T1
          (fun q hq => hps q (List.mem_cons_of_mem p hq)) hpres
      refine ⟨T2, ?_, hpres2⟩
      unfold build_transitions_for
      rw [hT1]
      exact hT2

theorem build_transitions_ok {V Tm : List String} :
    ∀ (g : GrammarT) (T : TransT), GrammarShapes V Tm g →
      DestsIn T (V ++ [FINAL_STATE_MARKER]) →
      ∃ T2, build_transitions T g = .ok T2 ∧
        DestsIn T2 (V ++ [FINAL_STATE_MARKER])
  | [], T, _, hT => ⟨T, rfl, hT⟩
  | (head, ps) :: rest, T, hg, hT => by
      obtain ⟨T1, hT1, hpres⟩ :=
        @build_transitions_for_ok V Tm head ps T
          (fun p hp => hg (head, ps) (List.mem_cons_self _ _) p hp) hT
      obtain ⟨T2, hT2, hpres2⟩ :=
        build_transitions_ok rest T1
          (fun e he p hp => hg e (List.mem_cons_of_mem _ he) p hp) hpres
      refine ⟨T2, ?_, hpres2⟩
      unfold build_transitions
      rw [hT1]
      exact hT2

theorem mkNFA_ne_internal (states alphabet : List String) (T : TransT)
    (start : String) (acc : List String) :
    mkNFA states alphabet T start acc ≠ .error .internalError := by
  unfold mkNFA
  split
  · simp
  · split
    · simp
    · split
      · simp
      · simp

theorem build_ok_spec {g : GrammarT} {V Tm : List String} {S : String}
    {n : NFA} (h : build_nfa_from_grammar g V Tm S = .ok n) :
    FINAL_STATE_MARKER ∉ V ∧
    ∃ T2, build_transitions [] g = .ok T2 ∧
      mkNFA (V ++ [FINAL_STATE_MARKER]) Tm T2 S [FINAL_STATE_MARKER] = .ok n := by
  unfold build_nfa_from_grammar at h
  split at h
  · exact absurd h (by simp)
  · rename_i hmem
    split at h
    · exact absurd h (by simp)
    · rename_i T2 hT2
      exact ⟨hmem, T2, hT2, h⟩

/-! ### The claims -/

/-- C1: for the grammar with terminals {a,b}, non-terminals {S,A}, start
symbol S and rules `S -> aA | b`, `A -> b`, the pipeline
`parse_grammar` → `build_nfa_from_grammar` → `accepts` accepts "ab" and
"b" and rejects "a", "" and "aab". -/
theorem claim1_end_to_end_scenario1 :
    pipelineAccepts ["S -> aA | b", "A -> b"] ["S", "A"] ["a", "b"] "S" "ab" =
      some true ∧
    pipelineAccepts ["S -> aA | b", "A -> b"] ["S", "A"] ["a", "b"] "S" "b" =
      some true ∧
    pipelineAccepts ["S -> aA | b", "A -> b"] ["S", "A"] ["a", "b"] "S" "a" =
      some false ∧
    pipelineAccepts ["S -> aA | b", "A -> b"] ["S", "A"] ["a", "b"] "S" "" =
      some false ∧
    pipelineAccepts ["S -> aA | b", "A -> b"] ["S", "A"] ["a", "b"] "S" "aab" =
      some false := by
  refine ⟨?_, ?_, ?_, ?_, ?_⟩ <;> decide

/-- C2: for every constructed automaton and every input whose symbols all
lie in the alphabet, `accepts` computes exactly the subset simulation the
spec describes: `current` starts as the epsilon closure of {start}; per
symbol `current` becomes the closure-of-set of the union of the symbol
transitions; an empty `current` rejects immediately without consuming the
remaining symbols; at the end acceptance is intersection with the accept
states. -/
theorem claim2_accepts_is_subset_simulation (n : NFA) (input_string : String)
    (h : ∀ c ∈ input_string.data, String.singleton c ∈ n.alphabet) :
    n.accepts input_string = acceptsSpec n input_string := by
  unfold NFA.accepts acceptsSpec
  exact acceptsFrom_eq_specLoop n input_string.data _ h

theorem claim2_witness :
    (∀ c ∈ ("ab").data, String.singleton c ∈ abSampleNFA.alphabet) ∧
    abSampleNFA.accepts "ab" = acceptsSpec abSampleNFA "ab" :=
  ⟨by decide, claim2_accepts_is_subset_simulation abSampleNFA "ab" (by decide)⟩

/-- C3: for the grammar with terminals {a}, non-terminals {S}, start S and
single rule `S -> epsilon`, the built automaton accepts "" (the final
marker lies in the epsilon closure of the start state, so the zero-symbol
input reaches it) and rejects "a". -/
theorem claim3_end_to_end_epsilon :
    pipelineAccepts ["S -> epsilon"] ["S"] ["a"] "S" "" = some true ∧
    pipelineAccepts ["S -> epsilon"] ["S"] ["a"] "S" "a" = some false ∧
    parse_grammar ["S -> epsilon"] ["S"] ["a"] "S" = .ok [("S", [(none, none)])] ∧
    build_nfa_from_grammar [("S", [(none, none)])] ["S"] ["a"] "S" =
      .ok epsSampleNFA ∧
    FINAL_STATE_MARKER ∈
      get_epsilon_closure_set epsSampleNFA [epsSampleNFA.start_state] := by
  refine ⟨?_, ?_, ?_, ?_, ?_⟩ <;> decide

/-- C4: every production in a table produced by `parse_grammar` has one of
the three legal shapes — epsilon, terminal-only with a declared terminal,
or declared terminal followed by a declared non-terminal; the shape
`(None, next)` never occurs, and consequently the RuntimeError branch of
`build_nfa_from_grammar` is unreachable on parser output. -/
theorem claim4_shapes_and_no_internal_error
    {lines V T : List String} {S : String} {g : GrammarT}
    (h : parse_grammar lines V T S = .ok g) :
    GrammarShapes V T g ∧
    (∀ e ∈ g, ∀ p ∈ e.2, ¬ (p.1 = none ∧ ∃ nt, p.2 = some nt)) ∧
    build_nfa_from_grammar g V T S ≠ .error .internalError := by
  have hs := parse_grammar_shapes h
  refine ⟨hs, ?_, ?_⟩
  · intro e he p hp hcontra
    rcases hcontra with ⟨h1, nt, h2⟩
    have := hs e he p hp
    rcases p with ⟨p1, p2⟩
    dsimp only at h1 h2
    rw [h1, h2] at this
    exact this
  · unfold build_nfa_from_grammar
    split
    · simp
    · obtain ⟨T2, hT2, _⟩ := build_transitions_ok g []
        hs (fun kv hkv => absurd hkv (List.not_mem_nil kv))
      rw [hT2]
      exact mkNFA_ne_internal _ _ _ _ _

theorem claim4_witness :
    parse_grammar ["S -> aA | b", "A -> b"] ["S", "A"] ["a", "b"] "S" =
      .ok [("S", [(some "a", some "A"), (some "b", none)]),
        ("A", [(some "b", none)])] ∧
    (GrammarShapes ["S", "A"] ["a", "b"]
      [("S", [(some "a", some "A"), (some "b", none)]),
        ("A", [(some "b", none)])] ∧
     (∀ e ∈ ([("S", [(some "a", some "A"), (some "b", none)]),
        ("A", [(some "b", none)])] : GrammarT), ∀ p ∈ e.2,
        ¬ (p.1 = none ∧ ∃ nt, p.2 = some nt)) ∧
     build_nfa_from_grammar
       [("S", [(some "a", some "A"), (some "b", none)]),
        ("A", [(some "b", none)])] ["S", "A"] ["a", "b"] "S" ≠
       .error .internalError) :=
  ⟨by decide, claim4_shapes_and_no_internal_error
    (by decide : parse_grammar ["S -> aA | b", "A -> b"] ["S", "A"]
      ["a", "b"] "S" = .ok [("S", [(some "a", some "A"), (some "b", none)]),
        ("A", [(some "b", none)])])⟩

/-- C5: for every state `s` of a constructed automaton, the cached epsilon
closure of `s` contains `s`, equals {s} when `s` has no outgoing epsilon
edges, is closed under further epsilon expansion (the
epsilon-closure-of-set of the closure is the closure), and computing the
closure of `s` twice yields identical results. -/
theorem claim5_closure_properties {states alphabet : List String}
    {T : TransT} {start : String} {acc : List String} {n : NFA} {s : String}
    (hmk : mkNFA states alphabet T start acc = .ok n) (hs : s ∈ n.states) :
    s ∈ cachedClosure n s ∧
    (epsNeighbors n.transitions s = [] → cachedClosure n s = [s]) ∧
    (∀ x, x ∈ get_epsilon_closure_set n (cachedClosure n s) ↔
      x ∈ cachedClosure n s) ∧
    (compute_epsilon_closure n s).1 =
      (compute_epsilon_closure (compute_epsilon_closure n s).2 s).1 := by
  obtain ⟨hst, _, htr, _, _, hcache, _, _⟩ := mkNFA_ok_spec hmk
  have hs2 : s ∈ states := by rw [← hst]; exact hs
  have hcc : cachedClosure n s = epsClosure T s := by
    unfold cachedClosure
    rw [hcache s, if_pos hs2]
    rfl
  refine ⟨?_, ?_, ?_, ?_⟩
  · rw [hcc]
    exact mem_epsClosure_self T s
  · intro h0
    rw [htr] at h0
    rw [hcc]
    exact epsClosure_of_no_neighbors h0
  · intro x
    unfold get_epsilon_closure_set
    constructor
    · intro hx
      rcases List.mem_flatMap.mp hx with ⟨z, hz, hxz⟩
      rw [hcc] at hz
      rw [hcache z] at hxz
      by_cases hzs : z ∈ states
      · rw [if_pos hzs] at hxz
        rw [Option.getD_some] at hxz
        rw [hcc]
        exact epsClosure_trans hz hxz
      · rw [if_neg hzs] at hxz
        rw [Option.getD_none, List.mem_singleton] at hxz
        rw [hcc, hxz]
        exact hz
    · intro hx
      refine List.mem_flatMap.mpr ⟨x, hx, ?_⟩
      rw [hcache x]
      by_cases hxs : x ∈ states
      · rw [if_pos hxs, Option.getD_some]
        exact mem_epsClosure_self T x
      · rw [if_neg hxs, Option.getD_none]
        exact List.mem_singleton_self x
  · have hl : cacheLookup n.epsilon_closures s = some (epsClosure T s) := by
      rw [hcache s, if_pos hs2]
    simp [compute_epsilon_closure, hl]

theorem claim5_witness :
    mkNFA ["S", "_FINAL_"] ["a"] [(("S", none), ["_FINAL_"])] "S"
      ["_FINAL_"] = .ok epsSampleNFA ∧
    "S" ∈ epsSampleNFA.states ∧
    ("S" ∈ cachedClosure epsSampleNFA "S" ∧
     (epsNeighbors epsSampleNFA.transitions "S" = [] →
       cachedClosure epsSampleNFA "S" = ["S"]) ∧
     (∀ x, x ∈ get_epsilon_closure_set epsSampleNFA
        (cachedClosure epsSampleNFA "S") ↔
        x ∈ cachedClosure epsSampleNFA "S") ∧
     (compute_epsilon_closure epsSampleNFA "S").1 =
       (compute_epsilon_closure
         (compute_epsilon_closure epsSampleNFA "S").2 "S").1) :=
  ⟨by decide, by decide, claim5_closure_properties
    (by decide : mkNFA ["S", "_FINAL_"] ["a"] [(("S", none), ["_FINAL_"])]
      "S" ["_FINAL_"] = .ok epsSampleNFA)
    (by decide : "S" ∈ epsSampleNFA.states)⟩

/-- C6: a grammar successfully compiled by `build_nfa_from_grammar` with
declared start symbol S yields an automaton whose start state is S, whose
accept set is exactly the singleton final marker, and whose state set is
the declared non-terminals together with the marker; and construction
fails when a declared non-terminal is named like the marker. -/
theorem claim6_build_fields (g : GrammarT) (V Tm : List String) (S : String) :
    (∀ n, build_nfa_from_grammar g V Tm S = .ok n →
      n.start_state = S ∧
      (∀ x, x ∈ n.accept_states ↔ x = FINAL_STATE_MARKER) ∧
      (∀ x, x ∈ n.states ↔ x ∈ V ∨ x = FINAL_STATE_MARKER)) ∧
    (FINAL_STATE_MARKER ∈ V →
      build_nfa_from_grammar g V Tm S = .error .markerClash) := by
  constructor
  · intro n h
    obtain ⟨_, T2, _, hmk⟩ := build_ok_spec h
    obtain ⟨hst, _, _, hss, hacc, _, _, _⟩ := mkNFA_ok_spec hmk
    refine ⟨hss, ?_, ?_⟩
    · intro x
      rw [hacc, List.mem_singleton]
    · intro x
      rw [hst, List.mem_append, List.mem_singleton]
  · intro hF
    unfold build_nfa_from_grammar
    rw [if_pos hF]

theorem claim6_witness :
    build_nfa_from_grammar [("S", [(none, none)])] ["S"] ["a"] "S" =
      .ok epsSampleNFA ∧
    (epsSampleNFA.start_state = "S" ∧
     (∀ x, x ∈ epsSampleNFA.accept_states ↔ x = FINAL_STATE_MARKER) ∧
     (∀ x, x ∈ epsSampleNFA.states ↔ x ∈ ["S"] ∨ x = FINAL_STATE_MARKER)) ∧
    build_nfa_from_grammar [("S", [(none, none)])] ["_FINAL_"] ["a"] "S" =
      .error .markerClash :=
  ⟨by decide,
   (claim6_build_fields [("S", [(none, none)])] ["S"] ["a"] "S").1
     epsSampleNFA (by decide),
   (claim6_build_fields [("S", [(none, none)])] ["_FINAL_"] ["a"] "S").2
     (by decide)⟩

/-- C7: `parse_grammar` fails before touching any rule line — for every
list of rule lines it returns one of the three precondition errors —
whenever the declared non-terminal set is empty, or the start symbol is
undeclared, or the terminal and non-terminal sets overlap; in particular
with terminals {a} and non-terminals {a} it always fails with the
disjointness error. -/
theorem claim7_preconditions :
    (∀ (lines V T : List String) (S : String),
      (V = [] ∨ S ∉ V ∨ ∃ x, x ∈ T ∧ x ∈ V) →
      ∃ e, parse_grammar lines V T S = .error e ∧
        (e = .emptyNonTerminals ∨ e = .startNotDeclared S ∨
         e = .notDisjoint)) ∧
    (∀ lines, parse_grammar lines ["a"] ["a"] "a" = .error .notDisjoint) := by
  constructor
  · intro lines V T S h
    unfold parse_grammar
    by_cases h1 : V.isEmpty
    · rw [if_pos h1]
      exact ⟨_, rfl, Or.inl rfl⟩
    · rw [if_neg h1]
      by_cases h2 : S ∉ V
      · rw [if_pos h2]
        exact ⟨_, rfl, Or.inr (Or.inl rfl)⟩
      · rw [if_neg h2]
        by_cases h3 : T.any (fun t => decide (t ∈ V)) = true
        · rw [if_pos h3]
          exact ⟨_, rfl, Or.inr (Or.inr rfl)⟩
        · exfalso
          rcases h with h | h | ⟨x, hxT, hxV⟩
          · rw [h] at h1
            exact h1 rfl
          · exact h2 h
          · exact h3 (List.any_eq_true.mpr ⟨x, hxT, by simp [hxV]⟩)
  · intro lines
    rfl

theorem claim7_witness :
    ∃ e, parse_grammar ["S -> b"] ["a"] ["a"] "a" = .error e ∧
      (e = .emptyNonTerminals ∨ e = .startNotDeclared "a" ∨
       e = .notDisjoint) :=
  claim7_preconditions.1 ["S -> b"] ["a"] ["a"] "a"
    (Or.inr (Or.inr ⟨"a", by decide, by decide⟩))

/-- C8: an input containing a symbol outside the alphabet makes `accepts`
return false without raising (the soft-rejection path), and the driver
reports that case as the invalid-symbol outcome, which is distinct from
both ordinary outcomes, so the caller can tell it apart from ordinary
non-acceptance. -/
theorem claim8_soft_rejection (n : NFA) (input_string : String)
    (h : ∃ c ∈ input_string.data, String.singleton c ∉ n.alphabet) :
    n.accepts input_string = false ∧
    main_check n input_string = .invalidSymbolRejection ∧
    CheckOutcome.invalidSymbolRejection ≠ CheckOutcome.rejected ∧
    CheckOutcome.invalidSymbolRejection ≠ CheckOutcome.accepted := by
  refine ⟨?_, ?_, by decide, by decide⟩
  · unfold NFA.accepts
    exact acceptsFrom_false_of_invalid n input_string.data _ h
  · unfold main_check
    rcases h with ⟨c, hc, hcn⟩
    rw [if_neg]
    intro hall
    rw [List.all_eq_true] at hall
    exact hcn (of_decide_eq_true (hall c hc))

theorem claim8_witness :
    (∃ c ∈ ("ac").data, String.singleton c ∉ abSampleNFA.alphabet) ∧
    (abSampleNFA.accepts "ac" = false ∧
     main_check abSampleNFA "ac" = .invalidSymbolRejection ∧
     CheckOutcome.invalidSymbolRejection ≠ CheckOutcome.rejected ∧
     CheckOutcome.invalidSymbolRejection ≠ CheckOutcome.accepted) :=
  ⟨by decide, claim8_soft_rejection abSampleNFA "ac" (by decide)⟩

/-- C9: `accepts` is deterministic and mutation-free: threading the object
state through every operation the loop performs returns the object
unchanged in every field (including the closure cache), agrees with the
direct translation of `accepts`, and a second call on the returned object
yields the same boolean. -/
theorem claim9_accepts_pure (n : NFA) (input_string : String) :
    (acceptsSt n input_string).2 = n ∧
    (acceptsSt n input_string).1 = n.accepts input_string ∧
    (acceptsSt (acceptsSt n input_string).2 input_string).1 =
      (acceptsSt n input_string).1 ∧
    (acceptsSt n input_string).2.states = n.states ∧
    (acceptsSt n input_string).2.alphabet = n.alphabet ∧
    (acceptsSt n input_string).2.transitions = n.transitions ∧
    (acceptsSt n input_string).2.start_state = n.start_state ∧
    (acceptsSt n input_string).2.accept_states = n.accept_states ∧
    (acceptsSt n input_string).2.epsilon_closures = n.epsilon_closures := by
  have hspec := acceptsFromSt_spec input_string.data n
    (get_epsilon_closure_set n [n.start_state])
  have h2 : (acceptsSt n input_string).2 = n := hspec.1
  have h1 : (acceptsSt n input_string).1 = n.accepts input_string := hspec.2
  refine ⟨h2, h1, ?_, by rw [h2], by rw [h2], by rw [h2], by rw [h2],
    by rw [h2], by rw [h2]⟩
  rw [h2]

/-- C10: in every automaton built from parser output, every destination
state of every transition lies in the automaton's state set (a declared
non-terminal or the final marker) — an invariant the `NFA` constructor
itself never checks, as the accompanying stray-destination automaton it
happily accepts shows. -/
theorem claim10_dests_invariant {lines V Tm : List String} {S : String}
    {g : GrammarT} {n : NFA}
    (hp : parse_grammar lines V Tm S = .ok g)
    (hb : build_nfa_from_grammar g V Tm S = .ok n) :
    (∀ kv ∈ n.transitions, ∀ d ∈ kv.2, d ∈ n.states) ∧
    (∀ kv ∈ n.transitions, ∀ d ∈ kv.2,
      d ∈ V ∨ d = FINAL_STATE_MARKER) ∧
    (mkNFA ["q"] ["a"] [(("q", some "a"), ["z"])] "q" [] =
      .ok strayDestNFA ∧ "z" ∉ strayDestNFA.states) := by
  have hs := parse_grammar_shapes hp
  obtain ⟨_, T2, hT2, hmk⟩ := build_ok_spec hb
  obtain ⟨hst, _, htr, _, _, _, _, _⟩ := mkNFA_ok_spec hmk
  obtain ⟨T3, hT3, hdest⟩ := build_transitions_ok g []
    hs (fun kv hkv => absurd hkv (List.not_mem_nil kv))
  rw [hT2] at hT3
  injection hT3 with hT3
  rw [← hT3] at hdest
  have hmain : ∀ kv ∈ n.transitions, ∀ d ∈ kv.2,
      d ∈ V ++ [FINAL_STATE_MARKER] := by
    rw [htr]
    exact hdest
  refine ⟨?_, ?_, by decide, by decide⟩
  · intro kv hkv d hd
    rw [hst]
    exact hmain kv hkv d hd
  · intro kv hkv d hd
    have := hmain kv hkv d hd
    rw [List.mem_append, List.mem_singleton] at this
    exact this

theorem claim10_witness :
    parse_grammar ["S -> epsilon"] ["S"] ["a"] "S" =
      .ok [("S", [(none, none)])] ∧
    build_nfa_from_grammar [("S", [(none, none)])] ["S"] ["a"] "S" =
      .ok epsSampleNFA ∧
    ((∀ kv ∈ epsSampleNFA.transitions, ∀ d ∈ kv.2,
       d ∈ epsSampleNFA.states) ∧
     (∀ kv ∈ epsSampleNFA.transitions, ∀ d ∈ kv.2,
       d ∈ ["S"] ∨ d = FINAL_STATE_MARKER) ∧
     (mkNFA ["q"] ["a"] [(("q", some "a"), ["z"])] "q" [] =
       .ok strayDestNFA ∧ "z" ∉ strayDestNFA.states)) :=
  ⟨by decide, by decide, claim10_dests_invariant
    (by decide : parse_grammar ["S -> epsilon"] ["S"] ["a"] "S" =
      .ok [("S", [(none, none)])])
    (by decide : build_nfa_from_grammar [("S", [(none, none)])] ["S"] ["a"]
      "S" = .ok epsSampleNFA)⟩

end TOA
